import Mathlib

/-!
Shallow embedding of the hybrid number-set codec (src/codec.js) and proofs
about it.

The codec serializes sets of integers from the range [1, 300] into tagged
strings ("B1:" bitset payloads or "D1:" delta-varint payloads) and parses
them back.  Strings are modelled as `List Char`, bytes as `Nat` below 256,
JavaScript 32-bit integer arithmetic as `Nat`/`Int` arithmetic with explicit
`% 2 ^ 32`, and the throwing functions as `Except String`.  The platform
base64 primitives (Node `Buffer.toString("base64")` and
`Buffer.from(str, "base64")`) are embedded as well, including the lenient
behaviour of the decoder: characters outside the (combined standard and
url-safe) alphabet are skipped and `=` stops decoding; the decoder never
throws.
-/

namespace Codec

/-- Abstraction of a JavaScript value as seen by `normalizeNumbers`
(codec.js 20-35): `int n` is a number whose value is the integer `n`
(`Number.isInteger` true, hence also finite and not NaN); `nonIntNum` is a
number that is not an integer (NaN, an infinity or a fractional value);
`nonNum` is a value that is not a number.  Values of the last two classes are
skipped by `normalizeNumbers` before any arithmetic happens, so collapsing
each class to a single constructor does not change any observable output. -/
inductive JSVal where
  | int (n : Int)
  | nonIntNum
  | nonNum
deriving DecidableEq

/-- One insertion into a JavaScript `Set` built from a list: keep the first
occurrence of each element, in encounter order. -/
def jsSetAdd [DecidableEq α] (acc : List α) (x : α) : List α :=
  if x ∈ acc then acc else acc ++ [x]

/-- The element list of `new Set(l)` (JavaScript `Set` iteration order is
insertion order, first occurrences kept). -/
def jsSet [DecidableEq α] (l : List α) : List α := l.foldl jsSetAdd []

/-- JavaScript `.sort((a, b) => a - b)` on a number array: sort ascending. -/
def sortInts (l : List Int) : List Int := l.insertionSort (· ≤ ·)

def MIN_VALUE : Int := 1

def MAX_VALUE : Int := 300

def BITMASK_SIZE_BYTES : Nat := 38

/-- `normalizeNumbers` (codec.js 20-35): deduplicate via `new Set`, keep the
integer numbers in [1, 300] (the `typeof`/`Number.isInteger` test on line 25
already skips every non-integer, so the NaN and finiteness tests on line 28
are always true for the survivors), deduplicate again and sort ascending. -/
def normalizeNumbers (numbers : List JSVal) : List Int :=
  let numberSet := jsSet numbers
  let valid := numberSet.filterMap (fun num =>
    match num with
    | JSVal.int n => if MIN_VALUE ≤ n ∧ n ≤ MAX_VALUE then some n else none
    | JSVal.nonIntNum => none
    | JSVal.nonNum => none)
  sortInts (jsSet valid)

/-- The standard base64 alphabet, indexed by sextet value. -/
def b64Alphabet : List Char :=
  "ABCDEFGHIJKLMNOPQRSTUVWXYZabcdefghijklmnopqrstuvwxyz0123456789+/".toList

/-- Character for a sextet value (0..63). -/
def sextetChar (n : Nat) : Char := b64Alphabet.getD n 'A'

/-- The sextet values of a byte sequence under base64 grouping: each group of
3 bytes yields 4 sextets, a trailing group of 1 or 2 bytes yields the partial
group of 2 or 3 sextets that precedes the `=` padding. -/
def b64SextetsOfBytes : List Nat → List Nat
  | b0 :: b1 :: b2 :: rest =>
      b0 / 4 :: (b0 % 4 * 16 + b1 / 16) :: (b1 % 16 * 4 + b2 / 64) :: b2 % 64 ::
        b64SextetsOfBytes rest
  | [b0, b1] => [b0 / 4, b0 % 4 * 16 + b1 / 16, b1 % 16 * 4]
  | [b0] => [b0 / 4, b0 % 4 * 16]
  | [] => []

/-- Number of `=` padding characters standard base64 appends: none for a
byte count divisible by 3, two for a remainder of 1, one for a remainder
of 2. -/
def b64PadCount (nbytes : Nat) : Nat := (3 - nbytes % 3) % 3

/-- Node `Buffer.toString("base64")`: standard padded base64 text. -/
def b64Encode (bytes : List Nat) : List Char :=
  (b64SextetsOfBytes bytes).map sextetChar ++ List.replicate (b64PadCount bytes.length) '='

/-- The `+` → `-`, `/` → `_` substitution of `base64urlEncode`
(codec.js 47-49). -/
def urlSubChar (c : Char) : Char := if c = '+' then '-' else if c = '/' then '_' else c

/-- `base64urlEncode` (codec.js 44-51): standard base64, url-safe
substitution, then strip the trailing run of `=` (`replace(/=+$/, "")`,
written here as a dropWhile on the reversed list because `=` only occurs in
that trailing run). -/
def base64urlEncode (bytes : List Nat) : List Char :=
  ((((b64Encode bytes).map urlSubChar).reverse.dropWhile (fun c => c = '=')).reverse)

/-- The `-` → `+`, `_` → `/` substitution of the decoders
(codec.js 57-59 and 190-192). -/
def urlUnsubChar (c : Char) : Char := if c = '-' then '+' else if c = '_' then '/' else c

/-- Sextet value of a character for Node's base64 decoder.  The decoder
accepts the standard and the url-safe alphabet simultaneously; every other
character is invalid (`none`). -/
def unb64 (c : Char) : Option Nat :=
  if 'A' ≤ c ∧ c ≤ 'Z' then some (c.toNat - 65)
  else if 'a' ≤ c ∧ c ≤ 'z' then some (c.toNat - 97 + 26)
  else if '0' ≤ c ∧ c ≤ '9' then some (c.toNat - 48 + 52)
  else if c = '+' ∨ c = '-' then some 62
  else if c = '/' ∨ c = '_' then some 63
  else none

/-- The sextet stream Node's base64 decoder reads from a string: invalid
characters are silently skipped, `=` stops decoding, valid characters
contribute their sextet value.  In particular the decoder never fails. -/
def b64Sextets : List Char → List Nat
  | [] => []
  | c :: rest =>
      match unb64 c with
      | some v => v :: b64Sextets rest
      | none => if c = '=' then [] else b64Sextets rest

/-- Bytes from a sextet stream: each full group of 4 sextets yields 3 bytes,
a trailing group of 2 or 3 sextets yields 1 or 2 bytes, a trailing single
sextet yields nothing. -/
def sextetsToBytes : List Nat → List Nat
  | s0 :: s1 :: s2 :: s3 :: rest =>
      (s0 * 4 + s1 / 16) :: (s1 % 16 * 16 + s2 / 4) :: (s2 % 4 * 64 + s3) ::
        sextetsToBytes rest
  | [s0, s1, s2] => [s0 * 4 + s1 / 16, s1 % 16 * 16 + s2 / 4]
  | [s0, s1] => [s0 * 4 + s1 / 16]
  | _ => []

/-- Node `Buffer.from(str, "base64")`. -/
def nodeB64Decode (s : List Char) : List Nat := sextetsToBytes (b64Sextets s)

/-- Re-pad with `=` to a multiple of four characters (the `while` loop of
codec.js 61-63 and 194-196). -/
def jsRepad (s : List Char) : List Char :=
  s ++ List.replicate ((4 - s.length % 4) % 4) '='

/-- `base64urlDecode` (codec.js 56-72): substitute the url alphabet back,
re-pad, decode with Node's `Buffer`, then copy the result into a fresh
zero-filled `Uint8Array(38)` (bytes beyond index 37 are dropped, missing
bytes stay zero) — so the result ALWAYS has exactly 38 bytes. -/
def base64urlDecode (str : List Char) : List Nat :=
  let buffer := nodeB64Decode (jsRepad (str.map urlUnsubChar))
  buffer.take BITMASK_SIZE_BYTES ++
    List.replicate (BITMASK_SIZE_BYTES - (buffer.take BITMASK_SIZE_BYTES).length) 0

/-- `decodeBytesForDelta` (codec.js 189-200): the same substitution, re-pad
and `Buffer` decode, but returning the decoded bytes as they are. -/
def decodeBytesForDelta (str : List Char) : List Nat :=
  nodeB64Decode (jsRepad (str.map urlUnsubChar))

/-- One iteration of the bit-setting loop of `serializeBitset`
(codec.js 80-85): set bit `num - 1`, bits packed most-significant-first
inside each byte (`bitmask[byteIndex] |= 1 << (7 - bitOffset)`).  `num`
comes from a normalized list, so `1 ≤ num ≤ 300` at every call site. -/
def setBit (bitmask : List Nat) (num : Int) : List Nat :=
  let bitIndex := (num - MIN_VALUE).toNat
  let byteIndex := bitIndex / 8
  let bitOffset := bitIndex % 8
  bitmask.set byteIndex (bitmask.getD byteIndex 0 ||| 1 <<< (7 - bitOffset))

/-- `serializeBitset` (codec.js 77-89). -/
def serializeBitset (numbers : List Int) : List Char :=
  let bitmask := numbers.foldl setBit (List.replicate BITMASK_SIZE_BYTES 0)
  'B' :: '1' :: ':' :: base64urlEncode bitmask

/-- `deserializeBitset` (codec.js 94-124).  The bit test
`(bitmask[byteIndex] >> (7 - bitOffset)) & 1 === 1` is written with `>>>`
and `% 2`. -/
def deserializeBitset (payload : List Char) : Except String (List Int) :=
  let encoded := payload.drop 3
  if encoded.length = 0 then .error "Invalid B1 format: empty encoded data"
  else
    let bitmask := base64urlDecode encoded
    if bitmask.length ≠ BITMASK_SIZE_BYTES then
      .error ("Invalid bitmask size: expected 38 bytes, got " ++ toString bitmask.length)
    else
      let numbers := ((List.range 300).filter (fun bitIndex =>
        (bitmask.getD (bitIndex / 8) 0 >>> (7 - bitIndex % 8)) % 2 = 1)).map
          (fun (bitIndex : Nat) => (bitIndex : Int) + MIN_VALUE)
      .ok (sortInts numbers)

/-- The loop body of `encodeVarint` (codec.js 139-148) on a nonnegative
value.  JavaScript bitwise operators work on the 32-bit pattern of the
operand: `v & 127` is `v % 2 ^ 32 % 128` and `v >>>= 7` is
`v % 2 ^ 32 / 128`; on the final byte `v < 128`, so `v & 127 = v % 128`. -/
def encodeVarintAux (v : Nat) : List Nat :=
  if 128 ≤ v then (v % 2 ^ 32 % 128 + 128) :: encodeVarintAux (v % 2 ^ 32 / 128)
  else [v % 128]
termination_by v
decreasing_by
  rcases Nat.lt_or_ge v (2 ^ 32) with h1 | h1
  · rw [Nat.mod_eq_of_lt h1]
    exact Nat.div_lt_self (by omega) (by omega)
  · calc v % 2 ^ 32 / 128 ≤ v % 2 ^ 32 := Nat.div_le_self _ _
      _ < 2 ^ 32 := Nat.mod_lt _ (by omega)
      _ ≤ v := h1

/-- `encodeVarint` (codec.js 134-149). -/
def encodeVarint (value : Int) : Except String (List Nat) :=
  if value < 0 then .error "Varint cannot encode negative numbers"
  else .ok (encodeVarintAux value.toNat)

/-- `decodeVarint` (codec.js 154-176) reading from the start of `bytes` (the
JS `offset` argument corresponds to applying this to `bytes.drop offset`).
`value` accumulates the unsigned 32-bit pattern of the JS int32 `value`
(`value |= (byte & 127) << shift` over disjoint bit ranges, the shifted
summand truncated to 32 bits); `byte & 127` is `byte % 128` and
`(byte & 128) === 0` is `byte / 128 % 2 = 0` (bytes come from a
`Uint8Array`, so they are below 256).  When the bytes run out mid-varint the
accumulated value is returned as it stands, exactly like the JS `for` loop
falling off the end of the array. -/
def decodeVarintGo : List Nat → Nat → Nat → Nat → Except String (Nat × Nat)
  | [], value, _, read => .ok (value, read)
  | b :: rest, value, shift, read =>
      let value' := value ||| (b % 128 * 2 ^ shift % 2 ^ 32)
      if b / 128 % 2 = 0 then .ok (value', read + 1)
      else if 32 ≤ shift + 7 then .error "Varint too large"
      else decodeVarintGo rest value' (shift + 7) (read + 1)

/-- `decodeVarint` (codec.js 154-176) with `offset = 0`, returning the
decoded value (as its unsigned 32-bit pattern) and the number of bytes
consumed. -/
def decodeVarint (bytes : List Nat) : Except String (Nat × Nat) :=
  decodeVarintGo bytes 0 0 0

/-- Signed 32-bit reading of a bit pattern: the JS `value` produced by `|=`
and `<<` is an int32, so its uses in comparisons and additions see the
signed value. -/
def toInt32 (v : Nat) : Int :=
  if v % 2 ^ 32 < 2 ^ 31 then ((v % 2 ^ 32 : Nat) : Int)
  else ((v % 2 ^ 32 : Nat) : Int) - 2 ^ 32

/-- The delta loop of `serializeDelta` (codec.js 218-226): for each member
after the first, check `delta < 1` and emit `varint(delta - 1)`. -/
def deltaVarints (prev : Int) : List Int → Except String (List Nat)
  | [] => .ok []
  | x :: xs =>
      if x - prev < 1 then
        .error ("Invalid delta: " ++ toString (x - prev) ++ " (numbers must be sorted)")
      else
        match encodeVarint (x - prev - 1) with
        | .error e => .error e
        | .ok dv =>
            match deltaVarints x xs with
            | .error e => .error e
            | .ok rest => .ok (dv ++ rest)

/-- `serializeDelta` (codec.js 205-232); `encodeBytesForDelta`
(codec.js 182-184) is `base64urlEncode`. -/
def serializeDelta (numbers : List Int) : Except String (List Char) :=
  match numbers with
  | [] => .ok ['D', '1', ':']
  | first :: rest =>
      match encodeVarint (first - MIN_VALUE) with
      | .error e => .error e
      | .ok fv =>
          match deltaVarints first rest with
          | .error e => .error e
          | .ok dv => .ok ('D' :: '1' :: ':' :: base64urlEncode (fv ++ dv))

/-- The per-number logic of `deserializeDelta` applied when a varint value
`v` is completed: for the first number (codec.js 261-266, `current = none`)
compute `toInt32 v + 1` and require it to lie in [1, 300]; for a later
number (codec.js 271-280) add `toInt32 v + 1` to the running value and
require the result to be at most 300 (there is no lower-bound check
there). -/
def deltaStep (current : Option Int) (v : Nat) : Except String Int :=
  match current with
  | none =>
      let first := toInt32 v + 1
      if first < MIN_VALUE ∨ MAX_VALUE < first then
        .error ("Invalid first number: " ++ toString first)
      else .ok first
  | some cur =>
      let cur' := cur + (toInt32 v + 1)
      if MAX_VALUE < cur' then .error ("Invalid number after delta: " ++ toString cur')
      else .ok cur'

/-- The decode loop of `deserializeDelta` (codec.js 253-281) with
`decodeVarint` (codec.js 154-176) fused in, as one structural pass over the
bytes.  `varintState` is `some (value, shift)` in the middle of a varint
(the loop state of `decodeVarint`) and `none` at a varint boundary;
`current` is `none` before the first number is complete and `some cur`
afterwards.  A varint completes on a byte with the high bit clear, or when
the bytes run out mid-varint (exactly where `decodeVarint` stops), and its
value is then consumed by `deltaStep`.  The step lemmas
`deltaScan_cons_final` and `deltaScan_cons_cont` mirror
`decodeVarintGo_final` and `decodeVarintGo_cont` byte for byte, and
`deltaScan_varint` next to `decodeVarint_encode` shows the two consume an
encoded varint identically. -/
def deltaScan : List Nat → Option (Nat × Nat) → Option Int → Except String (List Int)
  | [], none, _ => .ok []
  | [], some (value, _), current =>
      match deltaStep current value with
      | .error e => .error e
      | .ok cur => .ok [cur]
  | b :: rest, varintState, current =>
      let value := (varintState.getD (0, 0)).1
      let shift := (varintState.getD (0, 0)).2
      let value' := value ||| (b % 128 * 2 ^ shift % 2 ^ 32)
      if b / 128 % 2 = 0 then
        match deltaStep current value' with
        | .error e => .error e
        | .ok cur =>
            match deltaScan rest none (some cur) with
            | .error e => .error e
            | .ok tail => .ok (cur :: tail)
      else if 32 ≤ shift + 7 then .error "Varint too large"
      else deltaScan rest (some (value', shift + 7)) current

/-- `deserializeDelta` (codec.js 237-284): strip the marker, empty body is
the empty set, otherwise decode the bytes, require at least one byte, run
the varint/delta loop and sort the result. -/
def deserializeDelta (payload : List Char) : Except String (List Int) :=
  let encoded := payload.drop 3
  if encoded.length = 0 then .ok []
  else
    let bytes := decodeBytesForDelta encoded
    if bytes.length = 0 then .error "Invalid D1 format: missing first number"
    else
      match deltaScan bytes none none with
      | .error e => .error e
      | .ok numbers => .ok (sortInts numbers)

/-- `serialize` (codec.js 297-314): normalize, short-circuit the empty set
to `"D1:"`, otherwise build both tagged payloads and keep the shorter one,
preferring the bitset payload on a tie. -/
def serialize (numbers : List JSVal) : Except String (List Char) :=
  let normalized := normalizeNumbers numbers
  if normalized.length = 0 then .ok ['D', '1', ':']
  else
    let bitsetStr := serializeBitset normalized
    match serializeDelta normalized with
    | .error e => .error e
    | .ok deltaStr =>
        if deltaStr.length < bitsetStr.length then .ok deltaStr else .ok bitsetStr

/-- `deserialize` (codec.js 323-335): reject the empty string, dispatch on
the 3-character marker, otherwise fail naming `payload.substring(0, 3)`. -/
def deserialize (payload : List Char) : Except String (List Int) :=
  if payload.length = 0 then .error "Invalid payload: must be a non-empty string"
  else if payload.take 3 = ['B', '1', ':'] then deserializeBitset payload
  else if payload.take 3 = ['D', '1', ':'] then deserializeDelta payload
  else
    .error ("Invalid format: expected prefix \"B1:\" or \"D1:\", got \"" ++
      String.mk (payload.take 3) ++ "\"")

/-- The concatenated delta varints of a strictly ascending tail, used to
state what `serializeDelta` produces. -/
def deltaBytes : Int → List Int → List Nat
  | _, [] => []
  | prev, x :: xs => encodeVarintAux (x - prev - 1).toNat ++ deltaBytes x xs

instance : IsAntisymm Int (· < ·) :=
  ⟨fun a _ h1 h2 => absurd (lt_trans h1 h2) (lt_irrefl a)⟩

deriving instance DecidableEq for Except

/-! ## Properties of `jsSet` and `sortInts` -/

theorem mem_jsSetAdd [DecidableEq α] (acc : List α) (a x : α) :
    x ∈ jsSetAdd acc a ↔ x ∈ acc ∨ x = a := by
  by_cases h : a ∈ acc
  · simp only [jsSetAdd, if_pos h]
    constructor
    · exact Or.inl
    · rintro (hx | rfl)
      · exact hx
      · exact h
  · simp [jsSetAdd, h]

theorem mem_foldl_jsSetAdd [DecidableEq α] :
    ∀ (l acc : List α) (x : α), x ∈ l.foldl jsSetAdd acc ↔ x ∈ acc ∨ x ∈ l
  | [], acc, x => by simp
  | a :: t, acc, x => by
      simp only [List.foldl_cons, mem_foldl_jsSetAdd t, mem_jsSetAdd, List.mem_cons]
      tauto

theorem mem_jsSet [DecidableEq α] (l : List α) (x : α) : x ∈ jsSet l ↔ x ∈ l := by
  simp [jsSet, mem_foldl_jsSetAdd]

theorem nodup_jsSetAdd [DecidableEq α] (acc : List α) (a : α) (h : acc.Nodup) :
    (jsSetAdd acc a).Nodup := by
  by_cases ha : a ∈ acc
  · simpa [jsSetAdd, ha] using h
  · simp [jsSetAdd, ha, List.nodup_append, h, List.Disjoint]
    intro x hx hxa
    exact ha (hxa ▸ hx)

theorem nodup_foldl_jsSetAdd [DecidableEq α] :
    ∀ (l acc : List α), acc.Nodup → (l.foldl jsSetAdd acc).Nodup
  | [], _, h => h
  | a :: t, acc, h => nodup_foldl_jsSetAdd t _ (nodup_jsSetAdd acc a h)

theorem nodup_jsSet [DecidableEq α] (l : List α) : (jsSet l).Nodup :=
  nodup_foldl_jsSetAdd l [] List.nodup_nil

theorem foldl_jsSetAdd_of_nodup [DecidableEq α] :
    ∀ (l acc : List α), (acc ++ l).Nodup → l.foldl jsSetAdd acc = acc ++ l
  | [], acc, _ => by simp
  | a :: t, acc, h => by
      have ha : a ∉ acc := fun hmem =>
        (List.disjoint_of_nodup_append h) hmem (List.mem_cons_self a t)
      have h2 : ((acc ++ [a]) ++ t).Nodup := by
        simpa [List.append_assoc] using h
      rw [List.foldl_cons]
      have hstep : jsSetAdd acc a = acc ++ [a] := by simp [jsSetAdd, ha]
      rw [hstep, foldl_jsSetAdd_of_nodup t (acc ++ [a]) h2, List.append_assoc]
      simp

theorem jsSet_of_nodup [DecidableEq α] (l : List α) (h : l.Nodup) : jsSet l = l := by
  simpa [jsSet] using foldl_jsSetAdd_of_nodup l [] (by simpa using h)

theorem sortInts_sorted (l : List Int) : List.Sorted (· ≤ ·) (sortInts l) :=
  List.sorted_insertionSort _ l

theorem sortInts_perm (l : List Int) : List.Perm (sortInts l) l :=
  List.perm_insertionSort _ l

theorem sortInts_eq_self {l : List Int} (h : List.Sorted (· ≤ ·) l) : sortInts l = l :=
  List.Sorted.insertionSort_eq h

theorem sorted_lt_of_le_nodup {l : List Int}
    (h : List.Sorted (· ≤ ·) l) (hn : l.Nodup) : List.Sorted (· < ·) l :=
  (h.and hn).imp fun hab => lt_of_le_of_ne hab.1 hab.2

/-! ## Properties of `normalizeNumbers` -/

theorem normalize_nodup (input : List JSVal) : (normalizeNumbers input).Nodup := by
  simp only [normalizeNumbers]
  exact ((sortInts_perm _).nodup_iff).2 (nodup_jsSet _)

theorem normalize_sorted (input : List JSVal) :
    List.Sorted (· < ·) (normalizeNumbers input) :=
  sorted_lt_of_le_nodup (List.sorted_insertionSort _ _) (normalize_nodup input)

theorem normalize_bounds (input : List JSVal) :
    ∀ x ∈ normalizeNumbers input, 1 ≤ x ∧ x ≤ 300 := by
  intro x hx
  simp only [normalizeNumbers] at hx
  have hx2 := ((sortInts_perm _).mem_iff).1 hx
  rw [mem_jsSet, List.mem_filterMap] at hx2
  obtain ⟨a, _, ha⟩ := hx2
  cases a with
  | int n =>
      simp only at ha
      split at ha
      · rename_i hcond
        cases ha
        simpa [MIN_VALUE, MAX_VALUE] using hcond
      · cases ha
  | nonIntNum => cases ha
  | nonNum => cases ha

theorem filterMap_range_id :
    ∀ l : List Int, (∀ x ∈ l, MIN_VALUE ≤ x ∧ x ≤ MAX_VALUE) →
      l.filterMap (fun n => if MIN_VALUE ≤ n ∧ n ≤ MAX_VALUE then some n else none) = l
  | [], _ => rfl
  | x :: t, h => by
      have hx := h x (List.mem_cons_self x t)
      have ht := filterMap_range_id t fun y hy => h y (List.mem_cons_of_mem x hy)
      simp only [List.filterMap_cons, if_pos hx, ht]

theorem jsval_int_injective : Function.Injective JSVal.int := by
  intro a b hab
  injection hab

theorem normalize_fix {S : List Int} (hs : List.Sorted (· < ·) S)
    (hb : ∀ x ∈ S, 1 ≤ x ∧ x ≤ 300) :
    normalizeNumbers (S.map JSVal.int) = S := by
  have hnd : S.Nodup := hs.imp fun hab => ne_of_lt hab
  have hmapnd : (S.map JSVal.int).Nodup := hnd.map jsval_int_injective
  have hb' : ∀ x ∈ S, MIN_VALUE ≤ x ∧ x ≤ MAX_VALUE := by
    simpa [MIN_VALUE, MAX_VALUE] using hb
  simp only [normalizeNumbers]
  rw [jsSet_of_nodup _ hmapnd, List.filterMap_map]
  have hcomp :
      ((fun num =>
          match num with
          | JSVal.int n => if MIN_VALUE ≤ n ∧ n ≤ MAX_VALUE then some n else none
          | JSVal.nonIntNum => none
          | JSVal.nonNum => none) ∘ JSVal.int) =
        fun n : Int => if MIN_VALUE ≤ n ∧ n ≤ MAX_VALUE then some n else none := rfl
  rw [hcomp, filterMap_range_id S hb', jsSet_of_nodup S hnd]
  exact sortInts_eq_self (hs.imp fun hab => le_of_lt hab)

/-! ## Claims about normalization -/

/-- C6: for every input collection (including non-numbers, NaN, infinities,
fractional numbers, duplicates, and out-of-range values) the normalizer
never fails (it is a total function): it returns a strictly ascending list
of integers in [1, 300]; and the spec example `[1, 301, -5, 2.5]`
normalizes to `[1]`. -/
theorem c6_normalizer_filters :
    (∀ input : List JSVal,
        List.Sorted (· < ·) (normalizeNumbers input) ∧
          ∀ x ∈ normalizeNumbers input, 1 ≤ x ∧ x ≤ 300) ∧
      normalizeNumbers [JSVal.int 1, JSVal.int 301, JSVal.int (-5), JSVal.nonIntNum] = [1] :=
  ⟨fun input => ⟨normalize_sorted input, normalize_bounds input⟩, by decide⟩

/-- C7: normalization is idempotent: re-normalizing a normalized list (seen
again as JavaScript values) returns it unchanged. -/
theorem c7_normalize_idempotent :
    ∀ x : List JSVal, normalizeNumbers ((normalizeNumbers x).map JSVal.int) = normalizeNumbers x :=
  fun x => normalize_fix (normalize_sorted x) (normalize_bounds x)

/-! ## Claims about the dispatch and the error paths -/

/-- C5: an input that normalizes to the empty set serializes to exactly
`"D1:"`, and deserializing `"D1:"` returns the empty list immediately,
without error. -/
theorem c5_empty_set (x : List JSVal) (h : normalizeNumbers x = []) :
    serialize x = .ok ['D', '1', ':'] ∧ deserialize ['D', '1', ':'] = .ok ([] : List Int) := by
  constructor
  · simp [serialize, h]
  · rfl

theorem c5_witness :
    serialize ([] : List JSVal) = .ok ['D', '1', ':'] ∧
      deserialize ['D', '1', ':'] = .ok ([] : List Int) :=
  c5_empty_set [] (by rfl)

/-- C9 (amended): for every NON-EMPTY payload whose 3-character prefix is
neither `"B1:"` nor `"D1:"`, `deserialize` fails with the format error that
names the offending prefix (`payload.substring(0, 3)`).  The empty payload
is rejected earlier with a different message, see
`c9_empty_payload_counterexample`. -/
theorem c9_unrecognized_marker (payload : List Char) (hne : payload ≠ [])
    (hb : payload.take 3 ≠ ['B', '1', ':']) (hd : payload.take 3 ≠ ['D', '1', ':']) :
    deserialize payload =
      .error ("Invalid format: expected prefix \"B1:\" or \"D1:\", got \"" ++
        String.mk (payload.take 3) ++ "\"") := by
  have hlen : payload.length ≠ 0 := by simpa [List.length_eq_zero] using hne
  simp [deserialize, hlen, hb, hd]

/-- C9 counterexample: the empty payload also has a marker that is neither
`"B1:"` nor `"D1:"` (it is missing), but `deserialize` rejects it with the
non-empty-string message, which does not name the offending prefix. -/
theorem c9_empty_payload_counterexample :
    deserialize [] = .error "Invalid payload: must be a non-empty string" := rfl

theorem c9_witness :
    deserialize ['X', 'X', ':', 'a', 'b', 'c'] =
      .error ("Invalid format: expected prefix \"B1:\" or \"D1:\", got \"" ++
        String.mk ['X', 'X', ':'] ++ "\"") :=
  c9_unrecognized_marker ['X', 'X', ':', 'a', 'b', 'c'] (by decide) (by decide) (by decide)

set_option maxRecDepth 4000 in
/-- C10: the varint decoder does not reject a truncated varint: a single
byte with the continuation bit set is consumed without error and the
partially accumulated bits are returned as the value; consequently the
non-canonical payload `"D1:hQ"`, whose body decodes to the single byte
`0x85`, deserializes successfully to `[6]`. -/
theorem c10_truncated_varint :
    (∀ b : Nat, 128 ≤ b → b < 256 → decodeVarint [b] = .ok (b - 128, 1)) ∧
      deserialize ['D', '1', ':', 'h', 'Q'] = .ok ([6] : List Int) := by
  constructor
  · intro b h1 h2
    have hfin : ∀ z : Fin 256, 128 ≤ z.val → decodeVarint [z.val] = .ok (z.val - 128, 1) := by
      decide
    exact hfin ⟨b, h2⟩ h1
  · rfl

theorem c10_witness : decodeVarint [133] = .ok (5, 1) :=
  c10_truncated_varint.1 133 (by decide) (by decide)

/-- C2 (code evaluation): `base64urlDecode` zero-pads or truncates every
decoded body to exactly 38 bytes, so the length guard of
`deserializeBitset` can never fire: the payload `"B1:AA"`, whose body
decodes (by the transcoder used for D1 bodies, which has no such padding)
to a single byte, is accepted and returns the empty list instead of
failing. -/
theorem c2_wrong_length_body_accepted :
    (∀ s : List Char, (base64urlDecode s).length = 38) ∧
      (decodeBytesForDelta ['A', 'A']).length = 1 ∧
      deserialize ['B', '1', ':', 'A', 'A'] = .ok ([] : List Int) := by
  refine ⟨fun s => ?_, by rfl, by rfl⟩
  simp only [base64urlDecode, BITMASK_SIZE_BYTES]
  simp [List.length_take]

/-- C3 (code evaluation): the base64url decode step never fails on
characters outside the alphabet; it silently skips them.  `'!'` is outside
the alphabet, yet `"D1:A!A"` deserializes successfully, to the same result
as `"D1:AA"`. -/
theorem c3_invalid_chars_skipped :
    unb64 '!' = none ∧
      deserialize ['D', '1', ':', 'A', '!', 'A'] = .ok ([1] : List Int) ∧
      deserialize ['D', '1', ':', 'A', 'A'] = .ok ([1] : List Int) :=
  ⟨by decide, by rfl, by rfl⟩

/-! ## Claim C8: the delta encoder rejects non-ascending sequences -/

theorem deltaVarints_err :
    ∀ (xs : List Int) (prev : Int), ¬ List.Chain' (· < ·) (prev :: xs) →
      ∃ e, deltaVarints prev xs = .error e
  | [], prev, h => absurd (List.chain'_singleton prev) h
  | x :: xs, prev, h => by
      by_cases hd : x - prev < 1
      · exact ⟨"Invalid delta: " ++ toString (x - prev) ++ " (numbers must be sorted)",
          by simp [deltaVarints, hd]⟩
      · have hch : ¬ List.Chain' (· < ·) (x :: xs) := by
          intro hc
          exact h (List.chain'_cons.2 ⟨by omega, hc⟩)
        obtain ⟨e, he⟩ := deltaVarints_err xs x hch
        refine ⟨e, ?_⟩
        have henc : encodeVarint (x - prev - 1) = .ok (encodeVarintAux (x - prev - 1).toNat) := by
          simp only [encodeVarint]
          rw [if_neg (by omega : ¬ x - prev - 1 < 0)]
        simp [deltaVarints, hd, henc, he]

/-- C8: for every non-empty integer sequence that is not strictly ascending
(some adjacent pair has delta below 1), the delta-varint encoder raises an
encoding error rather than producing a payload. -/
theorem c8_delta_rejects_unsorted (numbers : List Int) (hne : numbers ≠ [])
    (hbad : ¬ List.Chain' (· < ·) numbers) :
    ∃ e, serializeDelta numbers = .error e := by
  match numbers, hne with
  | x :: xs, _ =>
      by_cases hx : x - MIN_VALUE < 0
      · exact ⟨"Varint cannot encode negative numbers",
          by simp [serializeDelta, encodeVarint, hx]⟩
      · obtain ⟨e, he⟩ := deltaVarints_err xs x hbad
        refine ⟨e, ?_⟩
        have henc : encodeVarint (x - MIN_VALUE) = .ok (encodeVarintAux (x - MIN_VALUE).toNat) := by
          simp only [encodeVarint]
          rw [if_neg hx]
        simp [serializeDelta, henc, he]

theorem c8_witness :
    ¬ List.Chain' (· < ·) ([2, 2] : List Int) ∧
      ∃ e, serializeDelta [2, 2] = .error e :=
  ⟨by simp [List.chain'_cons],
    c8_delta_rejects_unsorted [2, 2] (by decide) (by simp [List.chain'_cons])⟩

/-! ## Round trip of the base64url transcoder -/

theorem sexts_lt :
    ∀ bytes : List Nat, (∀ b ∈ bytes, b < 256) → ∀ s ∈ b64SextetsOfBytes bytes, s < 64
  | b0 :: b1 :: b2 :: rest, h => by
      have h0 := h b0 (by simp)
      have h1 := h b1 (by simp)
      have h2 := h b2 (by simp)
      have ih := sexts_lt rest fun b hb => h b (by simp [hb])
      simp only [b64SextetsOfBytes, List.mem_cons]
      rintro s (rfl | rfl | rfl | rfl | hs)
      · omega
      · omega
      · omega
      · omega
      · exact ih s hs
  | [b0, b1], h => by
      have h0 := h b0 (by simp)
      have h1 := h b1 (by simp)
      simp only [b64SextetsOfBytes, List.mem_cons]
      rintro s (rfl | rfl | rfl | hs)
      · omega
      · omega
      · omega
      · simp at hs
  | [b0], h => by
      have h0 := h b0 (by simp)
      simp only [b64SextetsOfBytes, List.mem_cons]
      rintro s (rfl | rfl | hs)
      · omega
      · omega
      · simp at hs
  | [], _ => by simp [b64SextetsOfBytes]

theorem sextetsToBytes_sexts :
    ∀ bytes : List Nat, (∀ b ∈ bytes, b < 256) →
      sextetsToBytes (b64SextetsOfBytes bytes) = bytes
  | b0 :: b1 :: b2 :: rest, h => by
      have h0 := h b0 (by simp)
      have h1 := h b1 (by simp)
      have h2 := h b2 (by simp)
      have ih := sextetsToBytes_sexts rest fun b hb => h b (by simp [hb])
      simp only [b64SextetsOfBytes, sextetsToBytes, List.cons.injEq, ih]
      refine ⟨by omega, by omega, by omega, trivial⟩
  | [b0, b1], h => by
      have h0 := h b0 (by simp)
      have h1 := h b1 (by simp)
      simp only [b64SextetsOfBytes, sextetsToBytes, List.cons.injEq, and_true]
      refine ⟨by omega, by omega⟩
  | [b0], h => by
      have h0 := h b0 (by simp)
      simp only [b64SextetsOfBytes, sextetsToBytes, List.cons.injEq, and_true]
      omega
  | [], _ => rfl

set_option maxRecDepth 4000 in
theorem unb64_sextetChar (s : Nat) (h : s < 64) : unb64 (sextetChar s) = some s := by
  have hfin : ∀ z : Fin 64, unb64 (sextetChar z.val) = some z.val := by decide
  exact hfin ⟨s, h⟩

set_option maxRecDepth 4000 in
theorem urlUnsub_urlSub_sextetChar (s : Nat) (h : s < 64) :
    urlUnsubChar (urlSubChar (sextetChar s)) = sextetChar s := by
  have hfin : ∀ z : Fin 64, urlUnsubChar (urlSubChar (sextetChar z.val)) = sextetChar z.val := by
    decide
  exact hfin ⟨s, h⟩

set_option maxRecDepth 4000 in
theorem urlSub_sextetChar_ne_eq (s : Nat) (h : s < 64) : urlSubChar (sextetChar s) ≠ '=' := by
  have hfin : ∀ z : Fin 64, urlSubChar (sextetChar z.val) ≠ '=' := by decide
  exact hfin ⟨s, h⟩

theorem b64Sextets_replicate_eq : ∀ k : Nat, b64Sextets (List.replicate k '=') = []
  | 0 => rfl
  | k + 1 => by simp [List.replicate, b64Sextets, unb64]

theorem b64Sextets_valid :
    ∀ ss : List Nat, (∀ s ∈ ss, s < 64) → ∀ k : Nat,
      b64Sextets (ss.map sextetChar ++ List.replicate k '=') = ss
  | [], _, k => by simpa using b64Sextets_replicate_eq k
  | s :: ss, h, k => by
      have hs := h s (by simp)
      have ih := b64Sextets_valid ss (fun t ht => h t (by simp [ht])) k
      simp only [List.map_cons, List.cons_append, b64Sextets, unb64_sextetChar s hs,
        List.append_eq, ih]

theorem dropWhile_replicate_append :
    ∀ (k : Nat) (l : List Char),
      List.dropWhile (fun c => c = '=') (List.replicate k '=' ++ l) =
        List.dropWhile (fun c => c = '=') l
  | 0, l => by simp
  | k + 1, l => by
      rw [List.replicate_succ, List.cons_append, List.dropWhile_cons, if_pos (by rfl)]
      exact dropWhile_replicate_append k l

theorem dropWhile_eq_self_of (l : List Char) (h : ∀ c ∈ l, ¬ c = '=') :
    List.dropWhile (fun c => c = '=') l = l := by
  cases l with
  | nil => rfl
  | cons c t =>
      have hc := h c (by simp)
      simp [List.dropWhile_cons, hc]

theorem base64urlEncode_eq (bytes : List Nat) (h : ∀ b ∈ bytes, b < 256) :
    base64urlEncode bytes = ((b64SextetsOfBytes bytes).map sextetChar).map urlSubChar := by
  have hmapeq : (b64Encode bytes).map urlSubChar =
      ((b64SextetsOfBytes bytes).map sextetChar).map urlSubChar ++
        List.replicate (b64PadCount bytes.length) '=' := by
    simp [b64Encode, urlSubChar]
  have hne : ∀ c ∈ (((b64SextetsOfBytes bytes).map sextetChar).map urlSubChar).reverse,
      ¬ c = '=' := by
    intro c hc
    rw [List.mem_reverse] at hc
    simp only [List.map_map, List.mem_map] at hc
    obtain ⟨s, hs, rfl⟩ := hc
    exact urlSub_sextetChar_ne_eq s (sexts_lt bytes h s hs)
  simp only [base64urlEncode, hmapeq, List.reverse_append, List.reverse_replicate,
    dropWhile_replicate_append, dropWhile_eq_self_of _ hne, List.reverse_reverse]

theorem decode_encode (bytes : List Nat) (h : ∀ b ∈ bytes, b < 256) :
    nodeB64Decode (jsRepad ((base64urlEncode bytes).map urlUnsubChar)) = bytes := by
  rw [base64urlEncode_eq bytes h]
  have hunsub : (((b64SextetsOfBytes bytes).map sextetChar).map urlSubChar).map urlUnsubChar =
      (b64SextetsOfBytes bytes).map sextetChar := by
    rw [List.map_map, List.map_map]
    refine List.map_congr_left fun s hs => ?_
    have := urlUnsub_urlSub_sextetChar s (sexts_lt bytes h s hs)
    simpa [Function.comp] using this
  rw [hunsub]
  simp only [nodeB64Decode, jsRepad]
  rw [b64Sextets_valid (b64SextetsOfBytes bytes) (sexts_lt bytes h)]
  exact sextetsToBytes_sexts bytes h

theorem decodeBytesForDelta_encode (bytes : List Nat) (h : ∀ b ∈ bytes, b < 256) :
    decodeBytesForDelta (base64urlEncode bytes) = bytes :=
  decode_encode bytes h

theorem base64urlDecode_encode (bytes : List Nat) (hlen : bytes.length = 38)
    (h : ∀ b ∈ bytes, b < 256) :
    base64urlDecode (base64urlEncode bytes) = bytes := by
  simp only [base64urlDecode, BITMASK_SIZE_BYTES, decode_encode bytes h]
  rw [show (38 : Nat) = bytes.length from hlen.symm, List.take_length]
  simp

theorem sexts_ne_nil : ∀ bytes : List Nat, bytes ≠ [] → b64SextetsOfBytes bytes ≠ []
  | b0 :: b1 :: b2 :: rest, _ => by simp [b64SextetsOfBytes]
  | [b0, b1], _ => by simp [b64SextetsOfBytes]
  | [b0], _ => by simp [b64SextetsOfBytes]
  | [], h => absurd rfl h

theorem base64urlEncode_ne_nil (bytes : List Nat) (h : ∀ b ∈ bytes, b < 256)
    (hne : bytes ≠ []) : base64urlEncode bytes ≠ [] := by
  rw [base64urlEncode_eq bytes h]
  simp only [ne_eq, List.map_eq_nil_iff]
  exact sexts_ne_nil bytes hne

/-! ## The bitset codec round trip -/

theorem div_mod_two_eq_testBit (x k : Nat) : (x >>> k) % 2 = 1 ↔ Nat.testBit x k = true := by
  rw [Nat.testBit_to_div_mod, Nat.shiftRight_eq_div_pow]
  simp

theorem setBit_length (m : List Nat) (num : Int) : (setBit m num).length = m.length := by
  simp [setBit]

theorem setBit_testBit (m : List Nat) (num : Int) (i : Nat)
    (hnum1 : 1 ≤ num) (hnum2 : num ≤ 300) (hi : i < 300) (hlen : m.length = 38) :
    Nat.testBit ((setBit m num).getD (i / 8) 0) (7 - i % 8) =
      (Nat.testBit (m.getD (i / 8) 0) (7 - i % 8) || decide ((i : Int) + 1 = num)) := by
  have hmin : MIN_VALUE = (1 : Int) := rfl
  set bi := (num - MIN_VALUE).toNat with hbi_def
  have hbi : bi ≤ 299 := by rw [hbi_def, hmin]; omega
  have hnum_eq : ((i : Int) + 1 = num) ↔ bi = i := by rw [hbi_def, hmin]; omega
  have hsb : setBit m num = m.set (bi / 8) (m.getD (bi / 8) 0 ||| 1 <<< (7 - bi % 8)) := rfl
  by_cases hbyte : bi / 8 = i / 8
  · have hidx : bi / 8 < m.length := by omega
    have hget : (setBit m num).getD (i / 8) 0 =
        m.getD (i / 8) 0 ||| 1 <<< (7 - bi % 8) := by
      rw [hsb, ← hbyte]
      simp [List.getElem?_set_self hidx]
    rw [hget, Nat.testBit_or]
    have hsl : (1 : Nat) <<< (7 - bi % 8) = 2 ^ (7 - bi % 8) := by
      rw [Nat.shiftLeft_eq, one_mul]
    rw [hsl, Nat.testBit_two_pow]
    by_cases heq : bi = i
    · subst heq
      simp [hnum_eq]
    · have hoff : (7 - bi % 8) ≠ (7 - i % 8) := by omega
      simp [hoff, hnum_eq, heq]
  · have hget : (setBit m num).getD (i / 8) 0 = m.getD (i / 8) 0 := by
      rw [hsb]
      simp [List.getElem?_set_ne hbyte]
    have hne : ¬ ((i : Int) + 1 = num) := by
      rw [hnum_eq]
      omega
    rw [hget]
    simp [hne]

theorem foldl_setBit_testBit :
    ∀ (S : List Int) (m : List Nat), (∀ x ∈ S, 1 ≤ x ∧ x ≤ 300) → m.length = 38 →
      ∀ i, i < 300 →
        Nat.testBit ((S.foldl setBit m).getD (i / 8) 0) (7 - i % 8) =
          (Nat.testBit (m.getD (i / 8) 0) (7 - i % 8) || decide ((i : Int) + 1 ∈ S))
  | [], _, _, _, _, _ => by simp
  | x :: S, m, h, hlen, i, hi => by
      have hx := h x (by simp)
      have hlen2 : (setBit m x).length = 38 := by rw [setBit_length, hlen]
      rw [List.foldl_cons,
        foldl_setBit_testBit S (setBit m x) (fun y hy => h y (by simp [hy])) hlen2 i hi,
        setBit_testBit m x i hx.1 hx.2 hi hlen]
      simp [List.mem_cons, Bool.decide_or, Bool.or_assoc]

theorem replicate_mask_testBit (i : Nat) :
    Nat.testBit ((List.replicate BITMASK_SIZE_BYTES (0 : Nat)).getD (i / 8) 0) (7 - i % 8) =
      false := by
  simp only [List.getD_eq_getElem?_getD, List.getElem?_replicate]
  split <;> simp

theorem foldl_setBit_length :
    ∀ (S : List Int) (m : List Nat), (S.foldl setBit m).length = m.length
  | [], _ => rfl
  | x :: S, m => by rw [List.foldl_cons, foldl_setBit_length S, setBit_length]

theorem foldl_setBit_bytes_lt :
    ∀ (S : List Int) (m : List Nat), (∀ b ∈ m, b < 256) → ∀ b ∈ S.foldl setBit m, b < 256
  | [], _, h => h
  | x :: S, m, h => by
      have hm2 : ∀ b ∈ setBit m x, b < 256 := by
        intro b hb
        rcases List.mem_or_eq_of_mem_set (by simpa only [setBit] using hb) with hbm | rfl
        · exact h b hbm
        · have hg : m.getD ((x - MIN_VALUE).toNat / 8) 0 < 256 := by
            rcases Nat.lt_or_ge ((x - MIN_VALUE).toNat / 8) m.length with hlt | hge
            · have hmem : m.getD ((x - MIN_VALUE).toNat / 8) 0 ∈ m := by
                rw [List.getD_eq_getElem?_getD, List.getElem?_eq_getElem hlt]
                exact List.getElem_mem hlt
              exact h _ hmem
            · rw [List.getD_eq_getElem?_getD, List.getElem?_eq_none hge]
              simp
          have hshift : (1 : Nat) <<< (7 - (x - MIN_VALUE).toNat % 8) < 256 := by
            rw [Nat.shiftLeft_eq, one_mul]
            calc 2 ^ (7 - (x - MIN_VALUE).toNat % 8) ≤ 2 ^ 7 :=
                  Nat.pow_le_pow_right (by omega) (by omega)
              _ < 256 := by omega
          have h256 : (256 : Nat) = 2 ^ 8 := by norm_num
          rw [h256] at hg hshift ⊢
          exact Nat.or_lt_two_pow hg hshift
      exact foldl_setBit_bytes_lt S (setBit m x) hm2

theorem filter_range_extract (S : List Int) (hs : List.Sorted (· < ·) S)
    (hb : ∀ x ∈ S, 1 ≤ x ∧ x ≤ 300) (p : Nat → Bool)
    (hp : ∀ i, i < 300 → (p i = true ↔ ((i : Int) + 1 ∈ S))) :
    ((List.range 300).filter p).map (fun (i : Nat) => (i : Int) + 1) = S := by
  have hnd : S.Nodup := hs.imp fun hab => ne_of_lt hab
  have h1 : List.Pairwise (· < ·) (List.filter p (List.range 300)) :=
    (List.sorted_lt_range 300).filter p
  have hsortL :
      List.Sorted (· < ·)
        (((List.range 300).filter p).map (fun (i : Nat) => (i : Int) + 1)) :=
    h1.map (fun (i : Nat) => (i : Int) + 1)
      (fun a b hab => by show (a : Int) + 1 < (b : Int) + 1; omega)
  have hinj : Function.Injective (fun (i : Nat) => (i : Int) + 1) := by
    intro a b hab
    simp only at hab
    omega
  have hndL : (((List.range 300).filter p).map (fun (i : Nat) => (i : Int) + 1)).Nodup :=
    ((List.nodup_range 300).filter p).map hinj
  have hperm :
      List.Perm (((List.range 300).filter p).map (fun (i : Nat) => (i : Int) + 1)) S := by
    apply List.perm_of_nodup_nodup_toFinset_eq hndL hnd
    ext a
    simp only [List.mem_toFinset, List.mem_map, List.mem_filter, List.mem_range]
    constructor
    · rintro ⟨i, ⟨hir, hpi⟩, rfl⟩
      exact (hp i hir).1 hpi
    · intro ha
      have hab := hb a ha
      refine ⟨(a - 1).toNat, ⟨by omega, ?_⟩, by omega⟩
      rw [hp _ (by omega)]
      have hcast : (((a - 1).toNat : Int)) + 1 = a := by omega
      rw [hcast]
      exact ha
  exact List.eq_of_perm_of_sorted hperm hsortL hs

theorem deserializeBitset_rt (S : List Int) (hs : List.Sorted (· < ·) S)
    (hb : ∀ x ∈ S, 1 ≤ x ∧ x ≤ 300) :
    deserializeBitset (serializeBitset S) = .ok S := by
  set m := S.foldl setBit (List.replicate BITMASK_SIZE_BYTES 0) with hm_def
  have hmlen : m.length = 38 := by
    rw [hm_def, foldl_setBit_length]
    simp [BITMASK_SIZE_BYTES]
  have hmbytes : ∀ b ∈ m, b < 256 := by
    rw [hm_def]
    refine foldl_setBit_bytes_lt S _ fun b hbm => ?_
    rw [List.eq_of_mem_replicate hbm]
    omega
  have hser : serializeBitset S = 'B' :: '1' :: ':' :: base64urlEncode m := rfl
  have hm_ne : m ≠ [] := fun hnil => by simp [hnil] at hmlen
  have henc_ne : base64urlEncode m ≠ [] := base64urlEncode_ne_nil m hmbytes hm_ne
  rw [hser]
  simp only [deserializeBitset, List.drop_succ_cons, List.drop_zero]
  rw [if_neg (by simpa [List.length_eq_zero] using henc_ne)]
  simp only [base64urlDecode_encode m hmlen hmbytes]
  rw [if_neg (by simp [hmlen, BITMASK_SIZE_BYTES])]
  have hfilter : ((List.range 300).filter (fun bitIndex =>
      (m.getD (bitIndex / 8) 0 >>> (7 - bitIndex % 8)) % 2 = 1)).map
        (fun (bitIndex : Nat) => (bitIndex : Int) + MIN_VALUE) = S := by
    have hmin : MIN_VALUE = (1 : Int) := rfl
    rw [hmin]
    refine filter_range_extract S hs hb _ fun i hi => ?_
    rw [decide_eq_true_eq, div_mod_two_eq_testBit, hm_def,
      foldl_setBit_testBit S _ hb (by simp [BITMASK_SIZE_BYTES]) i hi,
      replicate_mask_testBit]
    simp
  rw [hfilter, sortInts_eq_self (hs.imp fun hab => le_of_lt hab)]

/-! ## Varints: encoding and decoding -/

set_option maxRecDepth 4000 in
theorem lor_128 (a : Nat) (h : a < 128) : a ||| 128 = a + 128 := by
  have hfin : ∀ z : Fin 128, z.val ||| 128 = z.val + 128 := by decide
  exact hfin ⟨a, h⟩

set_option maxRecDepth 4000 in
theorem lor_256 (a : Nat) (h : a < 128) : a ||| 256 = a + 256 := by
  have hfin : ∀ z : Fin 128, z.val ||| 256 = z.val + 256 := by decide
  exact hfin ⟨a, h⟩

theorem encodeVarintAux_small (v : Nat) (h : v < 128) : encodeVarintAux v = [v] := by
  unfold encodeVarintAux
  rw [if_neg (by omega), Nat.mod_eq_of_lt h]

theorem encodeVarintAux_two (v : Nat) (h1 : 128 ≤ v) (h2 : v < 16384) :
    encodeVarintAux v = [v % 128 + 128, v / 128] := by
  have hm : v % 2 ^ 32 = v := Nat.mod_eq_of_lt (by omega)
  unfold encodeVarintAux
  rw [if_pos h1, hm, encodeVarintAux_small (v / 128) (by omega)]

theorem encodeVarintAux_lt (v : Nat) : ∀ b ∈ encodeVarintAux v, b < 256 := by
  unfold encodeVarintAux
  split
  · rename_i h
    intro b hb
    rcases List.mem_cons.1 hb with rfl | hb2
    · omega
    · exact encodeVarintAux_lt (v % 2 ^ 32 / 128) b hb2
  · intro b hb
    rcases List.mem_cons.1 hb with rfl | hb2
    · omega
    · simp at hb2
termination_by v
decreasing_by
  rcases Nat.lt_or_ge v (2 ^ 32) with h1 | h1
  · rw [Nat.mod_eq_of_lt h1]
    exact Nat.div_lt_self (by omega) (by omega)
  · calc v % 2 ^ 32 / 128 ≤ v % 2 ^ 32 := Nat.div_le_self _ _
      _ < 2 ^ 32 := Nat.mod_lt _ (by omega)
      _ ≤ v := h1

theorem encodeVarintAux_ne_nil (v : Nat) : encodeVarintAux v ≠ [] := by
  unfold encodeVarintAux
  split <;> simp

theorem decodeVarintGo_final (b : Nat) (rest : List Nat) (value shift read : Nat)
    (hb : b / 128 % 2 = 0) :
    decodeVarintGo (b :: rest) value shift read =
      .ok (value ||| (b % 128 * 2 ^ shift % 2 ^ 32), read + 1) := by
  simp only [decodeVarintGo]
  rw [if_pos hb]

theorem decodeVarintGo_cont (b : Nat) (rest : List Nat) (value shift read : Nat)
    (hb : ¬ b / 128 % 2 = 0) (hs : ¬ 32 ≤ shift + 7) :
    decodeVarintGo (b :: rest) value shift read =
      decodeVarintGo rest (value ||| (b % 128 * 2 ^ shift % 2 ^ 32)) (shift + 7) (read + 1) := by
  simp only [decodeVarintGo]
  rw [if_neg hb, if_neg hs]

theorem decodeVarint_encode (v : Nat) (hv : v < 384) (rest : List Nat) :
    decodeVarint (encodeVarintAux v ++ rest) = .ok (v, (encodeVarintAux v).length) := by
  rcases Nat.lt_or_ge v 128 with h | h
  · rw [encodeVarintAux_small v h, List.singleton_append]
    simp only [decodeVarint]
    rw [decodeVarintGo_final v rest 0 0 0 (by omega)]
    have hval : 0 ||| (v % 128 * 2 ^ 0 % 2 ^ 32) = v := by
      rw [Nat.zero_or, pow_zero, Nat.mul_one, Nat.mod_eq_of_lt h, Nat.mod_eq_of_lt (by omega)]
    rw [hval]
    rfl
  · rw [encodeVarintAux_two v h (by omega), List.cons_append, List.cons_append,
      List.nil_append]
    simp only [decodeVarint]
    rw [decodeVarintGo_cont (v % 128 + 128) _ 0 0 0 (by omega) (by omega)]
    have hval1 : 0 ||| ((v % 128 + 128) % 128 * 2 ^ 0 % 2 ^ 32) = v % 128 := by
      rw [Nat.zero_or, pow_zero, Nat.mul_one]
      omega
    rw [hval1, decodeVarintGo_final (v / 128) rest (v % 128) 7 1 (by omega)]
    have hval2 : v % 128 ||| (v / 128 % 128 * 2 ^ 7 % 2 ^ 32) = v := by
      have hd : v / 128 % 128 = v / 128 := by omega
      rw [hd]
      rcases Nat.lt_or_ge v 256 with h2 | h2
      · have hq : v / 128 = 1 := by omega
        rw [hq]
        have : (1 : Nat) * 2 ^ 7 % 2 ^ 32 = 128 := by norm_num
        rw [this, lor_128 (v % 128) (by omega)]
        omega
      · have hq : v / 128 = 2 := by omega
        rw [hq]
        have : (2 : Nat) * 2 ^ 7 % 2 ^ 32 = 256 := by norm_num
        rw [this, lor_256 (v % 128) (by omega)]
        omega
    rw [hval2]
    rfl

/-! ## The delta-varint codec round trip -/

theorem deltaScan_cons_final (b : Nat) (rest : List Nat) (st : Option (Nat × Nat))
    (current : Option Int) (hb : b / 128 % 2 = 0) :
    deltaScan (b :: rest) st current =
      match deltaStep current
        ((st.getD (0, 0)).1 ||| (b % 128 * 2 ^ (st.getD (0, 0)).2 % 2 ^ 32)) with
      | .error e => .error e
      | .ok cur =>
          match deltaScan rest none (some cur) with
          | .error e => .error e
          | .ok tail => .ok (cur :: tail) := by
  simp only [deltaScan]
  rw [if_pos hb]

theorem deltaScan_cons_cont (b : Nat) (rest : List Nat) (st : Option (Nat × Nat))
    (current : Option Int) (hb : ¬ b / 128 % 2 = 0)
    (hs : ¬ 32 ≤ (st.getD (0, 0)).2 + 7) :
    deltaScan (b :: rest) st current =
      deltaScan rest
        (some ((st.getD (0, 0)).1 ||| (b % 128 * 2 ^ (st.getD (0, 0)).2 % 2 ^ 32),
          (st.getD (0, 0)).2 + 7)) current := by
  simp only [deltaScan]
  rw [if_neg hb, if_neg hs]

theorem deltaScan_varint (v : Nat) (hv : v < 384) (rest : List Nat) (current : Option Int) :
    deltaScan (encodeVarintAux v ++ rest) none current =
      match deltaStep current v with
      | .error e => .error e
      | .ok cur =>
          match deltaScan rest none (some cur) with
          | .error e => .error e
          | .ok tail => .ok (cur :: tail) := by
  rcases Nat.lt_or_ge v 128 with h | h
  · rw [encodeVarintAux_small v h, List.singleton_append,
      deltaScan_cons_final v rest none current (by omega)]
    have hval : ((none : Option (Nat × Nat)).getD (0, 0)).1 |||
        (v % 128 * 2 ^ ((none : Option (Nat × Nat)).getD (0, 0)).2 % 2 ^ 32) = v := by
      simp only [Option.getD_none]
      rw [Nat.zero_or, pow_zero, Nat.mul_one, Nat.mod_eq_of_lt h, Nat.mod_eq_of_lt (by omega)]
    rw [hval]
  · rw [encodeVarintAux_two v h (by omega), List.cons_append, List.cons_append,
      List.nil_append,
      deltaScan_cons_cont (v % 128 + 128) _ none current (by omega)
        (by simp only [Option.getD_none]; omega)]
    have hval1 : ((none : Option (Nat × Nat)).getD (0, 0)).1 |||
        ((v % 128 + 128) % 128 * 2 ^ ((none : Option (Nat × Nat)).getD (0, 0)).2 % 2 ^ 32) =
          v % 128 := by
      simp only [Option.getD_none]
      rw [Nat.zero_or, pow_zero, Nat.mul_one]
      omega
    rw [hval1]
    rw [deltaScan_cons_final (v / 128) rest
      (some (v % 128, ((none : Option (Nat × Nat)).getD (0, 0)).2 + 7)) current (by omega)]
    have hval2 : ((some (v % 128, ((none : Option (Nat × Nat)).getD (0, 0)).2 + 7)).getD
          (0, 0)).1 |||
        (v / 128 % 128 *
          2 ^ ((some (v % 128, ((none : Option (Nat × Nat)).getD (0, 0)).2 + 7)).getD
            (0, 0)).2 % 2 ^ 32) = v := by
      simp only [Option.getD_none, Option.getD_some]
      have hd : v / 128 % 128 = v / 128 := by omega
      rw [hd]
      rcases Nat.lt_or_ge v 256 with h2 | h2
      · have hq : v / 128 = 1 := by omega
        rw [hq]
        have h1 : (1 : Nat) * 2 ^ (0 + 7) % 2 ^ 32 = 128 := by norm_num
        rw [h1, lor_128 (v % 128) (by omega)]
        omega
      · have hq : v / 128 = 2 := by omega
        rw [hq]
        have h1 : (2 : Nat) * 2 ^ (0 + 7) % 2 ^ 32 = 256 := by norm_num
        rw [h1, lor_256 (v % 128) (by omega)]
        omega
    rw [hval2]

theorem deltaVarints_ok :
    ∀ (xs : List Int) (prev : Int), List.Sorted (· < ·) (prev :: xs) →
      deltaVarints prev xs = .ok (deltaBytes prev xs)
  | [], _, _ => rfl
  | x :: xs, prev, h => by
      have hpx : prev < x := (List.pairwise_cons.1 h).1 x (by simp)
      have htail : List.Sorted (· < ·) (x :: xs) := (List.pairwise_cons.1 h).2
      have henc : encodeVarint (x - prev - 1) = .ok (encodeVarintAux (x - prev - 1).toNat) := by
        simp only [encodeVarint]
        rw [if_neg (by omega)]
      simp only [deltaVarints, deltaBytes]
      rw [if_neg (by omega : ¬ x - prev < 1), henc, deltaVarints_ok xs x htail]

theorem deltaBytes_lt : ∀ (xs : List Int) (prev : Int), ∀ b ∈ deltaBytes prev xs, b < 256
  | [], _ => by simp [deltaBytes]
  | x :: xs, prev => by
      simp only [deltaBytes, List.mem_append]
      rintro b (hb | hb)
      · exact encodeVarintAux_lt _ b hb
      · exact deltaBytes_lt xs x b hb

theorem deltaScan_deltaBytes :
    ∀ (xs : List Int) (prev : Int), 1 ≤ prev → List.Sorted (· < ·) (prev :: xs) →
      (∀ x ∈ xs, x ≤ 300) → deltaScan (deltaBytes prev xs) none (some prev) = .ok xs
  | [], _, _, _, _ => rfl
  | x :: xs, prev, hprev, hs, hbd => by
      have hpx : prev < x := (List.pairwise_cons.1 hs).1 x (by simp)
      have hx300 : x ≤ 300 := hbd x (by simp)
      have hv : (x - prev - 1).toNat < 384 := by omega
      simp only [deltaBytes]
      rw [deltaScan_varint ((x - prev - 1).toNat) hv (deltaBytes x xs) (some prev)]
      have hstep : deltaStep (some prev) (x - prev - 1).toNat = .ok x := by
        simp only [deltaStep]
        have hmod : (x - prev - 1).toNat % 2 ^ 32 = (x - prev - 1).toNat :=
          Nat.mod_eq_of_lt (by omega)
        have ht32 : toInt32 (x - prev - 1).toNat = ((x - prev - 1).toNat : Int) := by
          simp only [toInt32, hmod]
          rw [if_pos (by omega)]
        rw [ht32]
        have hcur : prev + (((x - prev - 1).toNat : Int) + 1) = x := by omega
        rw [hcur, if_neg (by simp only [MAX_VALUE]; omega)]
      rw [hstep]
      show (match deltaScan (deltaBytes x xs) none (some x) with
        | Except.error e => Except.error e
        | Except.ok tail => Except.ok (x :: tail)) = Except.ok (x :: xs)
      rw [deltaScan_deltaBytes xs x (by omega) (List.pairwise_cons.1 hs).2
        (fun y hy => hbd y (by simp [hy]))]

theorem serializeDelta_eq (s0 : Int) (rest : List Int) (h1 : 1 ≤ s0)
    (hs : List.Sorted (· < ·) (s0 :: rest)) :
    serializeDelta (s0 :: rest) =
      .ok ('D' :: '1' :: ':' ::
        base64urlEncode (encodeVarintAux (s0 - MIN_VALUE).toNat ++ deltaBytes s0 rest)) := by
  have henc : encodeVarint (s0 - MIN_VALUE) = .ok (encodeVarintAux (s0 - MIN_VALUE).toNat) := by
    simp only [encodeVarint]
    rw [if_neg (by simp only [MIN_VALUE]; omega)]
  simp only [serializeDelta]
  rw [henc, deltaVarints_ok rest s0 hs]

theorem deserializeDelta_rt (s0 : Int) (rest : List Int)
    (hs : List.Sorted (· < ·) (s0 :: rest)) (hb : ∀ x ∈ s0 :: rest, 1 ≤ x ∧ x ≤ 300) :
    deserializeDelta ('D' :: '1' :: ':' ::
      base64urlEncode (encodeVarintAux (s0 - MIN_VALUE).toNat ++ deltaBytes s0 rest)) =
      .ok (s0 :: rest) := by
  have hs0 := hb s0 (by simp)
  have hvbbytes : ∀ b ∈ encodeVarintAux (s0 - MIN_VALUE).toNat ++ deltaBytes s0 rest,
      b < 256 := by
    intro b hbm
    rcases List.mem_append.1 hbm with h | h
    · exact encodeVarintAux_lt _ b h
    · exact deltaBytes_lt rest s0 b h
  have hvb_ne : encodeVarintAux (s0 - MIN_VALUE).toNat ++ deltaBytes s0 rest ≠ [] := by
    intro hnil
    exact encodeVarintAux_ne_nil _ (List.append_eq_nil.1 hnil).1
  have henc_ne : base64urlEncode (encodeVarintAux (s0 - MIN_VALUE).toNat ++
      deltaBytes s0 rest) ≠ [] := base64urlEncode_ne_nil _ hvbbytes hvb_ne
  simp only [deserializeDelta, List.drop_succ_cons, List.drop_zero]
  rw [if_neg (by simpa [List.length_eq_zero] using henc_ne)]
  rw [decodeBytesForDelta_encode _ hvbbytes]
  rw [if_neg (by simpa [List.length_eq_zero] using hvb_ne)]
  have hv0 : (s0 - MIN_VALUE).toNat < 384 := by simp only [MIN_VALUE]; omega
  rw [deltaScan_varint ((s0 - MIN_VALUE).toNat) hv0 (deltaBytes s0 rest) none]
  have hstep0 : deltaStep none (s0 - MIN_VALUE).toNat = .ok s0 := by
    simp only [deltaStep]
    have hmod : (s0 - MIN_VALUE).toNat % 2 ^ 32 = (s0 - MIN_VALUE).toNat :=
      Nat.mod_eq_of_lt (by simp only [MIN_VALUE]; omega)
    have ht32 : toInt32 (s0 - MIN_VALUE).toNat = ((s0 - MIN_VALUE).toNat : Int) := by
      simp only [toInt32, hmod]
      rw [if_pos (by simp only [MIN_VALUE]; omega)]
    rw [ht32]
    have hfst : ((s0 - MIN_VALUE).toNat : Int) + 1 = s0 := by simp only [MIN_VALUE]; omega
    rw [hfst, if_neg (by simp only [MIN_VALUE, MAX_VALUE]; omega)]
  rw [hstep0]
  show (match (match deltaScan (deltaBytes s0 rest) none (some s0) with
      | Except.error e => Except.error e
      | Except.ok tail => Except.ok (s0 :: tail)) with
    | Except.error e => Except.error e
    | Except.ok numbers => Except.ok (sortInts numbers)) = Except.ok (s0 :: rest)
  rw [deltaScan_deltaBytes rest s0 (by omega) hs (fun y hy => (hb y (by simp [hy])).2)]
  show Except.ok (sortInts (s0 :: rest)) = Except.ok (s0 :: rest)
  rw [sortInts_eq_self (hs.imp fun hab => le_of_lt hab)]

/-! ## The dispatch of `deserialize` on well-formed payloads -/

theorem deserialize_d1 (enc : List Char) :
    deserialize ('D' :: '1' :: ':' :: enc) = deserializeDelta ('D' :: '1' :: ':' :: enc) := by
  simp only [deserialize]
  rw [if_neg (by simp)]
  rw [if_neg (show ¬ ('D' :: '1' :: ':' :: enc).take 3 = ['B', '1', ':'] from
    fun h => absurd (List.cons.inj h).1 (by decide))]
  rw [if_pos (show ('D' :: '1' :: ':' :: enc).take 3 = ['D', '1', ':'] from rfl)]

theorem deserialize_b1 (enc : List Char) :
    deserialize ('B' :: '1' :: ':' :: enc) = deserializeBitset ('B' :: '1' :: ':' :: enc) := by
  simp only [deserialize]
  rw [if_neg (by simp)]
  rw [if_pos (show ('B' :: '1' :: ':' :: enc).take 3 = ['B', '1', ':'] from rfl)]

/-! ## Claims C1 and C4 -/

/-- C1: for every valid NumberSet (a strictly ascending, duplicate-free list
of integers in [1, 300], the empty list included), serializing and then
deserializing returns exactly the same ascending list. -/
theorem c1_roundtrip (S : List Int) (hs : List.Sorted (· < ·) S)
    (hb : ∀ x ∈ S, 1 ≤ x ∧ x ≤ 300) :
    ∃ p, serialize (S.map JSVal.int) = .ok p ∧ deserialize p = .ok S := by
  have hnorm : normalizeNumbers (S.map JSVal.int) = S := normalize_fix hs hb
  match S, hs, hb, hnorm with
  | [], _, _, _ => exact ⟨['D', '1', ':'], rfl, rfl⟩
  | s0 :: rest, hs, hb, hnorm =>
      have hs0 := hb s0 (by simp)
      have hser := serializeDelta_eq s0 rest hs0.1 hs
      have hserialize : serialize ((s0 :: rest).map JSVal.int) =
          (if ('D' :: '1' :: ':' ::
                base64urlEncode (encodeVarintAux (s0 - MIN_VALUE).toNat ++
                  deltaBytes s0 rest)).length <
              (serializeBitset (s0 :: rest)).length then
            Except.ok ('D' :: '1' :: ':' ::
              base64urlEncode (encodeVarintAux (s0 - MIN_VALUE).toNat ++ deltaBytes s0 rest))
          else Except.ok (serializeBitset (s0 :: rest))) := by
        simp only [serialize, hnorm]
        rw [if_neg (by simp), hser]
      by_cases hcmp : ('D' :: '1' :: ':' ::
          base64urlEncode (encodeVarintAux (s0 - MIN_VALUE).toNat ++
            deltaBytes s0 rest)).length < (serializeBitset (s0 :: rest)).length
      · refine ⟨'D' :: '1' :: ':' ::
            base64urlEncode (encodeVarintAux (s0 - MIN_VALUE).toNat ++ deltaBytes s0 rest),
            ?_, ?_⟩
        · rw [hserialize, if_pos hcmp]
        · rw [deserialize_d1, deserializeDelta_rt s0 rest hs hb]
      · refine ⟨serializeBitset (s0 :: rest), ?_, ?_⟩
        · rw [hserialize, if_neg hcmp]
        · have hbits : serializeBitset (s0 :: rest) = 'B' :: '1' :: ':' ::
              base64urlEncode ((s0 :: rest).foldl setBit
                (List.replicate BITMASK_SIZE_BYTES 0)) := rfl
          rw [hbits, deserialize_b1, ← hbits, deserializeBitset_rt (s0 :: rest) hs hb]

theorem c1_witness :
    ∃ p, serialize (([1] : List Int).map JSVal.int) = .ok p ∧
      deserialize p = .ok ([1] : List Int) :=
  c1_roundtrip [1] (by simp) (by simp)

/-- C4: for a non-empty normalized set, `serialize` returns whichever of the
tagged delta payload and the tagged bitset payload is shorter, its length is
the minimum of the two lengths, and on an exact tie it returns the bitset
(`B1`) payload. -/
theorem c4_shorter_format (numbers : List JSVal) (hne : normalizeNumbers numbers ≠ []) :
    ∃ d : List Char,
      serializeDelta (normalizeNumbers numbers) = .ok d ∧
        serialize numbers =
          .ok (if d.length < (serializeBitset (normalizeNumbers numbers)).length then d
            else serializeBitset (normalizeNumbers numbers)) ∧
        (∀ p, serialize numbers = .ok p →
          p.length = min d.length (serializeBitset (normalizeNumbers numbers)).length) ∧
        (d.length = (serializeBitset (normalizeNumbers numbers)).length →
          serialize numbers = .ok (serializeBitset (normalizeNumbers numbers))) := by
  have hs := normalize_sorted numbers
  have hb := normalize_bounds numbers
  rcases hNshape : normalizeNumbers numbers with _ | ⟨s0, rest⟩
  · exact absurd hNshape hne
  · rw [hNshape] at hs hb
    have hs0 := hb s0 (by simp)
    have hser := serializeDelta_eq s0 rest hs0.1 hs
    have hserialize : serialize numbers =
        (if ('D' :: '1' :: ':' ::
              base64urlEncode (encodeVarintAux (s0 - MIN_VALUE).toNat ++
                deltaBytes s0 rest)).length <
            (serializeBitset (s0 :: rest)).length then
          Except.ok ('D' :: '1' :: ':' ::
            base64urlEncode (encodeVarintAux (s0 - MIN_VALUE).toNat ++ deltaBytes s0 rest))
        else Except.ok (serializeBitset (s0 :: rest))) := by
      simp only [serialize, hNshape]
      rw [if_neg (by simp), hser]
    refine ⟨_, hser, ?_, ?_, ?_⟩
    · rw [hserialize]
      split <;> rfl
    · intro p hp
      rw [hserialize] at hp
      by_cases hcmp : ('D' :: '1' :: ':' ::
          base64urlEncode (encodeVarintAux (s0 - MIN_VALUE).toNat ++
            deltaBytes s0 rest)).length < (serializeBitset (s0 :: rest)).length
      · rw [if_pos hcmp] at hp
        cases hp
        omega
      · rw [if_neg hcmp] at hp
        cases hp
        omega
    · intro heq
      rw [hserialize, if_neg (by omega)]

theorem c4_witness :
    ∃ d : List Char,
      serializeDelta (normalizeNumbers [JSVal.int 1]) = .ok d ∧
        serialize [JSVal.int 1] =
          .ok (if d.length < (serializeBitset (normalizeNumbers [JSVal.int 1])).length then d
            else serializeBitset (normalizeNumbers [JSVal.int 1])) ∧
        (∀ p, serialize [JSVal.int 1] = .ok p →
          p.length = min d.length (serializeBitset (normalizeNumbers [JSVal.int 1])).length) ∧
        (d.length = (serializeBitset (normalizeNumbers [JSVal.int 1])).length →
          serialize [JSVal.int 1] = .ok (serializeBitset (normalizeNumbers [JSVal.int 1]))) :=
  c4_shorter_format [JSVal.int 1] (by decide)

end Codec
